import Mathlib

/-!
Verification of the codebase-RAG core (`codebase_rag.py`) against its
natural-language specification.

Shallow embedding conventions:
* Python strings are modelled as `List Char` (`Str`); `str` converts a Lean
  string literal to that representation.
* Python `int` is modelled as `Int` where values can go negative
  (`available_tokens` in `generate_enhanced_prompt`), `Nat` elsewhere.
* Floats are modelled as real numbers; the external embedding service is an
  opaque oracle `Str → Option (List ℝ)` (`embed_chunk` returns `None` on any
  failure, and the first returned vector on success).
* Tk message boxes are modelled as boolean flags in the returned record
  (`errorShown` / `warningShown`); file-system writes as explicit `FsOp`
  traces.
-/

namespace CodebaseRag

/-- Python strings, modelled as lists of characters. -/
abbrev Str := List Char

/-- Embed a Lean string literal as a Python string. -/
def str (s : String) : Str := s.data

/-- The approximate token count used throughout the source:
`len(s) // 4` (Python floor division on a nonnegative length). -/
def tokens (s : Str) : Nat := s.length / 4

/-- Python slicing `s[:k]` for a possibly negative `k`:
a negative `k` counts from the end (`s[:k] = s[0:len(s)+k]`, clamped to 0). -/
def pyTake (s : Str) (k : Int) : Str :=
  if 0 ≤ k then s.take k.toNat else s.take ((s.length : Int) + k).toNat

/-- A chunk record as built by `process_repo_with_progress` and stored in the
index file: `{"file": ..., "chunk_index": ..., "chunk": ..., "embedding": ...}`. -/
structure EmbeddingItem where
  file : Str
  chunk_index : Nat
  chunk : Str
  embedding : List ℝ

/-- The decimal rendering of a chunk index (Python string interpolation). -/
def natStr (n : Nat) : Str := (toString n).data

/-- The rendered chunk text of source lines 191 and 209: the literal
"File: ", the file path, " (Chunk ", the decimal chunk index, "):", a
newline, the chunk text, and two newlines. -/
def renderChunk (item : EmbeddingItem) : Str :=
  str "File: " ++ item.file ++ str " (Chunk " ++ natStr item.chunk_index ++
    str "):\n" ++ item.chunk ++ str "\n\n"

/-- `header = f"User Query:\n{query_text}\n\nRelevant Code Context:\n"` (line 183). -/
def mkHeader (query_text : Str) : Str :=
  str "User Query:\n" ++ query_text ++ str "\n\nRelevant Code Context:\n"

/-- `footer = f"\n\nCustom Instructions:\n{custom_instructions}"` (line 184). -/
def mkFooter (custom_instructions : Str) : Str :=
  str "\n\nCustom Instructions:\n" ++ custom_instructions

/-- The context-accumulation loop of `generate_enhanced_prompt`
(source lines 206–220): iterate over the selected items; a chunk whose
approximate token count fits in `available_tokens` is appended in full,
otherwise `chunk_text[:available_tokens * 4]` is appended and the loop stops. -/
def build_context : List EmbeddingItem → Int → Str
  | [], _ => []
  | item :: rest, available_tokens =>
      let chunk_text := renderChunk item
      let chunk_tokens : Int := (tokens chunk_text : Int)
      if 0 ≤ available_tokens - chunk_tokens then
        chunk_text ++ build_context rest (available_tokens - chunk_tokens)
      else
        pyTake chunk_text (available_tokens * 4)

/-- The prompt-assembly tail of `generate_enhanced_prompt`
(source lines 203–223): `base_token_count = len(header + footer) // 4`,
`available_tokens = max_prompt_tokens - base_token_count` (NOT clamped),
then the accumulation loop, then `header + context_text + footer`. -/
def assemble (header footer : Str) (selected_items : List EmbeddingItem)
    (max_prompt_tokens : Int) : Str :=
  let base_token_count : Int := (tokens (header ++ footer) : Int)
  let available_tokens := max_prompt_tokens - base_token_count
  header ++ build_context selected_items available_tokens ++ footer

/-- `chunk_file_text` (source lines 103–110): a text no longer than
`max_chars` is a single chunk; otherwise
`[text[i:i+max_chars] for i in range(0, len(text), max_chars)]`.
The `range` with step `max_chars` is rendered as a map over the first
`ceil(len/max_chars)` multiples of `max_chars`, which coincides with Python
for every `max_chars > 0` (Python raises on step 0). -/
def chunk_file_text (text : Str) (max_chars : Nat) : List Str :=
  if text.length ≤ max_chars then [text]
  else (List.range ((text.length + max_chars - 1) / max_chars)).map
    (fun i => (text.drop (i * max_chars)).take max_chars)

/-- `np.dot` on two equal-length vectors (sum of pointwise products);
floats are modelled as reals. -/
def dot (v1 v2 : List ℝ) : ℝ := (List.zipWith (· * ·) v1 v2).sum

/-- `np.linalg.norm(v)`: the Euclidean magnitude `sqrt (v · v)`. -/
noncomputable def np_norm (v : List ℝ) : ℝ := Real.sqrt (dot v v)

open Classical in
/-- `cosine_similarity` (source lines 162–169): returns 0 when either vector
has zero magnitude, otherwise the normalized dot product. -/
noncomputable def cosine_similarity (v1 v2 : List ℝ) : ℝ :=
  if np_norm v1 = 0 ∨ np_norm v2 = 0 then 0
  else dot v1 v2 / (np_norm v1 * np_norm v2)

/-- The descending-similarity ordering used by
`results.sort(key=lambda x: x[0], reverse=True)`. -/
def simDesc (a b : ℝ × EmbeddingItem) : Prop := b.1 ≤ a.1

open Classical in
noncomputable instance : DecidableRel simDesc := fun _ _ => inferInstanceAs (Decidable (_ ≤ _))

instance : IsTotal (ℝ × EmbeddingItem) simDesc := ⟨fun a b => le_total b.1 a.1⟩

instance : IsTrans (ℝ × EmbeddingItem) simDesc := ⟨fun _ _ _ h1 h2 => le_trans h2 h1⟩

/-- The ranking step of `generate_enhanced_prompt` (source lines 177–181):
pair every stored chunk with its cosine similarity to the query embedding and
sort descending by similarity. The `list.sort` method of Python is a stable sort, and
with `reverse=True` equal keys keep their original order; it is modelled by
stable insertion sort with the descending comparison. -/
noncomputable def rank (query_embedding : List ℝ) (embeddings_data : List EmbeddingItem) :
    List (ℝ × EmbeddingItem) :=
  List.insertionSort simDesc
    (embeddings_data.map (fun item => (cosine_similarity query_embedding item.embedding, item)))

/-- The outcome of `generate_enhanced_prompt`: the returned string plus
whether `messagebox.showerror` / `messagebox.showwarning` fired. -/
structure PromptResult where
  prompt : Str
  errorShown : Bool
  warningShown : Bool
deriving Repr

/-- Selection policy plus assembly (source lines 186–223), applied to the
already ranked list. With `include_entire_codebase`, the full prompt is
projected first; if `len(full_prompt) // 4 > max_prompt_tokens` a warning is
shown and the selection falls back to the top `top_k` entries. -/
def select_and_assemble (results : List (ℝ × EmbeddingItem)) (header footer : Str)
    (top_k : Nat) (max_prompt_tokens : Int) (include_entire_codebase : Bool) : PromptResult :=
  if include_entire_codebase then
    let full_context := (results.map (fun p => renderChunk p.2)).flatten
    let full_prompt := header ++ full_context ++ footer
    if max_prompt_tokens < (tokens full_prompt : Int) then
      { prompt := assemble header footer ((results.take top_k).map Prod.snd) max_prompt_tokens,
        errorShown := false, warningShown := true }
    else
      { prompt := assemble header footer (results.map Prod.snd) max_prompt_tokens,
        errorShown := false, warningShown := false }
  else
    { prompt := assemble header footer ((results.take top_k).map Prod.snd) max_prompt_tokens,
      errorShown := false, warningShown := false }

/-- `generate_enhanced_prompt` (source lines 171–223). The query embedding is
the result of the opaque `embed_chunk(query_text)` call: `none` models an
embedding failure, in which case an error box is shown and `""` returned
(lines 173–176) without touching the chunk set. -/
noncomputable def generate_enhanced_prompt (query_embedding : Option (List ℝ))
    (query_text : Str) (embeddings_data : List EmbeddingItem)
    (custom_instructions : Str) (top_k : Nat) (max_prompt_tokens : Int)
    (include_entire_codebase : Bool) : PromptResult :=
  match query_embedding with
  | none => { prompt := [], errorShown := true, warningShown := false }
  | some qe =>
      select_and_assemble (rank qe embeddings_data)
        (mkHeader query_text) (mkFooter custom_instructions)
        top_k max_prompt_tokens include_entire_codebase

/-- `process_repo_with_progress` (source lines 131–160). A repository is a
list of `(path, content)` pairs where `content` is what `read_file` returned
(`""`, i.e. `[]`, for an empty or unreadable file — line 101). A file with
falsy content is skipped (`if not content: continue`, line 138); otherwise its
chunks are enumerated in order and embedded; a record is appended only when
`embed_chunk` returns a truthy value (`if embedding:`, line 148 — neither
`None` nor an empty vector). -/
def process_repo_with_progress (code_files : List (Str × Str))
    (embed : Str → Option (List ℝ)) (max_chars : Nat) : List EmbeddingItem :=
  code_files.flatMap (fun fc =>
    if fc.2 = [] then []
    else
      ((chunk_file_text fc.2 max_chars).enum).filterMap (fun ic =>
        match embed ic.2 with
        | some (x :: xs) =>
            some { file := fc.1, chunk_index := ic.1, chunk := ic.2, embedding := x :: xs }
        | _ => none))

/-- The number of `embed_chunk` calls the build loop issues: one per chunk of
every file with truthy content (source lines 135–147). -/
def count_embed_calls (code_files : List (Str × Str)) (max_chars : Nat) : Nat :=
  (code_files.map (fun fc =>
    if fc.2 = [] then 0 else (chunk_file_text fc.2 max_chars).length)).sum

/-- A parsed persisted index file: `data.get("repo_hash", None)` and
`data.get("embeddings", [])`. -/
structure IndexData where
  repo_hash : Option String
  embeddings : List EmbeddingItem

/-- The cache decision logic of `start_embedding_thread` (source lines
266–312), abstracted over the interactive and network inputs: `persisted` is
the parsed existing embed file (`none` when the file is missing or unparsable,
line 287), `refresh_answer` the reply of the user to the out-of-date prompt, and
`embed` the embedding oracle. Returns the resulting embeddings together with
the number of embedding calls made. -/
def start_embedding (persisted : Option IndexData) (current_hash : String)
    (refresh_answer : Bool) (code_files : List (Str × Str))
    (embed : Str → Option (List ℝ)) (max_chars : Nat) : List EmbeddingItem × Nat :=
  match persisted with
  | some data =>
      if data.repo_hash = some current_hash then
        (data.embeddings, 0)
      else if refresh_answer = false then
        (data.embeddings, 0)
      else
        (process_repo_with_progress code_files embed max_chars,
         count_embed_calls code_files max_chars)
  | none =>
      (process_repo_with_progress code_files embed max_chars,
       count_embed_calls code_files max_chars)

/-- A file-system operation, for modelling how the index is persisted. -/
inductive FsOp where
  | write (path : String) (content : List Char)
  | rename (src dst : String)
deriving DecidableEq

/-- The persistence step of `run_processing` (source lines 307–309):
`open(embed_file, "w")` followed by `json.dump(...)` — a single direct write
of the serialized index to the final path, with no temporary file and no
rename. `serialized` stands for the JSON text produced by `json.dump`. -/
def persist_index (embed_file : String) (serialized : List Char) : List FsOp :=
  [FsOp.write embed_file serialized]

/-- Follows the words of the spec ("one atomic write (write-temp-then-rename or
equivalent — never leave a half-written index file on disk)"): an operation
trace is atomic for `final_path` when no raw data write ever targets
`final_path` itself, so its content can only appear via a rename. -/
def spec_atomic_persist (ops : List FsOp) (final_path : String) : Bool :=
  ops.all (fun op =>
    match op with
    | FsOp.write p _ => decide (p ≠ final_path)
    | FsOp.rename _ _ => true)

/-- The contents `path` may be left holding if execution is interrupted
during the trace: any prefix of any write targeted at `path`. -/
def interrupted_contents (ops : List FsOp) (path : String) : List (List Char) :=
  ops.flatMap (fun op =>
    match op with
    | FsOp.write p c =>
        if p = path then (List.range (c.length + 1)).map (fun k => c.take k) else []
    | FsOp.rename _ _ => [])

/-! ## Chunking lemmas -/

/-- Unfolding the slicing comprehension one step: for a non-empty `l` the slice
list is the first `max_chars`-slice followed by the slices of the remainder. -/
lemma chunkSlices_eq_cons {m : Nat} (hm : 0 < m) {l : Str} (hl : l ≠ []) :
    (List.range ((l.length + m - 1) / m)).map (fun i => (l.drop (i * m)).take m) =
      l.take m :: (List.range (((l.drop m).length + m - 1) / m)).map
        (fun i => ((l.drop m).drop (i * m)).take m) := by
  have hN : 0 < l.length := List.length_pos.mpr hl
  have hcount : (l.length + m - 1) / m = ((l.drop m).length + m - 1) / m + 1 := by
    rw [List.length_drop]
    by_cases hml : m ≤ l.length
    · have h1 : l.length + m - 1 = (l.length - m + m - 1) + m := by omega
      rw [h1, Nat.add_div_right _ hm]
    · have hrhs : (l.length - m + m - 1) / m = 0 := Nat.div_eq_of_lt (by omega)
      have hlhs : (l.length + m - 1) / m = 1 :=
        Nat.div_eq_of_lt_le (by omega) (by omega)
      rw [hrhs, hlhs]
  rw [hcount, List.range_succ_eq_map, List.map_cons, Nat.zero_mul, List.drop_zero,
    List.map_map]
  refine congrArg (l.take m :: ·) (List.map_congr_left fun i _ => ?_)
  simp only [Function.comp_apply, List.drop_drop]
  rw [Nat.succ_mul, Nat.add_comm (i * m) m]

/-- Concatenating the slices recovers the original text. -/
lemma chunkSlices_flatten {m : Nat} (hm : 0 < m) :
    ∀ N (l : Str), l.length = N →
      ((List.range ((l.length + m - 1) / m)).map
        (fun i => (l.drop (i * m)).take m)).flatten = l := by
  intro N
  induction N using Nat.strong_induction_on with
  | _ N ih =>
    intro l hlen
    by_cases hl : l = []
    · subst hl
      simp [Nat.div_eq_of_lt (show 0 + m - 1 < m by omega)]
    · have hN : 0 < l.length := List.length_pos.mpr hl
      rw [chunkSlices_eq_cons hm hl, List.flatten_cons,
        ih (l.drop m).length (by rw [List.length_drop]; omega) (l.drop m) rfl,
        List.take_append_drop]

/-- Every slice whose start index is in range is non-empty. -/
lemma chunkSlices_ne_nil {m : Nat} (hm : 0 < m) {l : Str} {i : Nat}
    (hi : i < (l.length + m - 1) / m) : (l.drop (i * m)).take m ≠ [] := by
  have h3 := (Nat.le_div_iff_mul_le hm).mp hi
  have h4 : i * m + m ≤ l.length + m - 1 := by
    calc i * m + m = (i + 1) * m := by ring
    _ ≤ l.length + m - 1 := h3
  intro hnil
  rcases List.take_eq_nil_iff.mp hnil with h | h
  · omega
  · rw [List.drop_eq_nil_iff] at h
    omega

/-- C3 helper: with a positive chunk size, chunking a non-empty text yields
only non-empty chunks. -/
lemma chunk_file_text_ne_nil {text : Str} {max_chars : Nat} (hm : 0 < max_chars)
    (ht : text ≠ []) : ∀ c ∈ chunk_file_text text max_chars, c ≠ [] := by
  intro c hc
  rw [chunk_file_text] at hc
  by_cases hle : text.length ≤ max_chars
  · rw [if_pos hle] at hc
    simp only [List.mem_singleton] at hc
    subst hc; exact ht
  · rw [if_neg hle] at hc
    obtain ⟨i, hi, rfl⟩ := List.mem_map.mp hc
    exact chunkSlices_ne_nil hm (List.mem_range.mp hi)

/-- C3: `chunk_file_text` returns the whole text as one chunk when it fits;
otherwise it returns `ceil(len/max_chars)` consecutive non-overlapping slices,
all but the last of length exactly `max_chars`, whose concatenation is the
original text. -/
theorem chunk_file_text_spec (text : Str) (max_chars : Nat) (hm : 0 < max_chars) :
    (text.length ≤ max_chars → chunk_file_text text max_chars = [text]) ∧
    (max_chars < text.length →
      (chunk_file_text text max_chars).length =
          (text.length + max_chars - 1) / max_chars ∧
      (∀ i, i + 1 < (chunk_file_text text max_chars).length →
        ((chunk_file_text text max_chars).getD i []).length = max_chars) ∧
      (chunk_file_text text max_chars).flatten = text) := by
  constructor
  · intro h
    rw [chunk_file_text, if_pos h]
  · intro h
    have hne : chunk_file_text text max_chars =
        (List.range ((text.length + max_chars - 1) / max_chars)).map
          (fun i => (text.drop (i * max_chars)).take max_chars) := by
      rw [chunk_file_text, if_neg (by omega)]
    refine ⟨by rw [hne, List.length_map, List.length_range], ?_, ?_⟩
    · intro i hi
      rw [hne, List.length_map, List.length_range] at hi
      have hgd : (chunk_file_text text max_chars).getD i [] =
          (text.drop (i * max_chars)).take max_chars := by
        rw [hne, List.getD_eq_getElem?_getD, List.getElem?_map,
          List.getElem?_range (show i < _ by omega)]
        rfl
      rw [hgd, List.length_take, List.length_drop]
      have h3 := (Nat.le_div_iff_mul_le hm).mp
        (show i + 2 ≤ (text.length + max_chars - 1) / max_chars by omega)
      have h4 : i * max_chars + 2 * max_chars ≤ text.length + max_chars - 1 := by
        calc i * max_chars + 2 * max_chars = (i + 2) * max_chars := by ring
        _ ≤ text.length + max_chars - 1 := h3
      omega
    · rw [hne]
      exact chunkSlices_flatten hm text.length text rfl

/-- C3 witness: `chunk_file_text` on the 5-character text `"abcde"` with
`max_chars = 2`. -/
theorem chunk_file_text_spec_witness :
    ((str "abcde").length ≤ 2 → chunk_file_text (str "abcde") 2 = [str "abcde"]) ∧
    (2 < (str "abcde").length →
      (chunk_file_text (str "abcde") 2).length = ((str "abcde").length + 2 - 1) / 2 ∧
      (∀ i, i + 1 < (chunk_file_text (str "abcde") 2).length →
        ((chunk_file_text (str "abcde") 2).getD i []).length = 2) ∧
      (chunk_file_text (str "abcde") 2).flatten = str "abcde") :=
  chunk_file_text_spec (str "abcde") 2 (by decide)

/-! ## Prompt-assembly budget lemmas -/

/-- Length bound for the accumulation loop: starting from a nonnegative
budget, the produced context is at most `4 * available_tokens` characters
plus 3 characters of floor-rounding slack per selected chunk. -/
lemma build_context_length (sel : List EmbeddingItem) :
    ∀ avail : Int, 0 ≤ avail →
      (build_context sel avail).length ≤ (4 * avail).toNat + 3 * sel.length := by
  induction sel with
  | nil => intro avail _; simp [build_context]
  | cons item rest ih =>
    intro avail h
    simp only [build_context]
    by_cases hfit : 0 ≤ avail - (tokens (renderChunk item) : Int)
    · rw [if_pos hfit]
      have h1 := ih (avail - (tokens (renderChunk item) : Int)) hfit
      rw [List.length_append]
      simp only [tokens, List.length_cons] at h1 hfit ⊢
      omega
    · rw [if_neg hfit, pyTake, if_pos (by positivity)]
      rw [List.length_take]
      omega

/-- C1 (amended): provided the header and footer alone fit the budget
(`tokens(header + footer) ≤ max_prompt_tokens`), the estimated token count of the assembled prompt is at most `max_prompt_tokens` plus the number of
selected chunks (each fully placed chunk loses up to 3 characters to floor
division); with an empty chunk list the result is exactly `header + footer`. -/
theorem assemble_token_bound (header footer : Str) (selected : List EmbeddingItem)
    (max_prompt_tokens : Int)
    (hbase : (tokens (header ++ footer) : Int) ≤ max_prompt_tokens) :
    (tokens (assemble header footer selected max_prompt_tokens) : Int)
        ≤ max_prompt_tokens + selected.length ∧
    assemble header footer [] max_prompt_tokens = header ++ footer := by
  constructor
  · have havail : 0 ≤ max_prompt_tokens - (tokens (header ++ footer) : Int) := by omega
    have hb := build_context_length selected _ havail
    simp only [assemble, tokens, List.length_append] at hb hbase ⊢
    omega
  · simp [assemble, build_context]

/-- C1 counterexample: the claim as stated fails. With an empty query and
empty instructions (header+footer is 60 characters, 15 tokens — within the
budget of 25) and two ranked chunks of 23 rendered characters each (counted
as 5 tokens each by floor division), both chunks are placed in full, and the
returned 106-character string estimates to 26 tokens, exceeding
`max_tokens = 25 > 0`. -/
theorem assemble_token_bound_counterexample :
    tokens (mkHeader [] ++ mkFooter []) ≤ 25 ∧
    25 < tokens (assemble (mkHeader []) (mkFooter [])
      [⟨[], 0, str "abc", []⟩, ⟨[], 1, str "abc", []⟩] 25) := by decide

/-- C1 witness: the amended bound applied at a concrete input. -/
theorem assemble_token_bound_witness :
    (tokens (mkHeader [] ++ mkFooter []) : Int) ≤ 25 ∧
    ((tokens (assemble (mkHeader []) (mkFooter []) [⟨[], 0, str "abc", []⟩] 25) : Int)
        ≤ 25 + 1 ∧
      assemble (mkHeader []) (mkFooter []) [] 25 = mkHeader [] ++ mkFooter []) :=
  ⟨by decide,
    assemble_token_bound (mkHeader []) (mkFooter []) [⟨[], 0, str "abc", []⟩] 25 (by decide)⟩

/-- C2: evaluation at the failing input. With an empty query and empty
instructions, `tokens(header) + tokens(footer) = 15 ≥ max_prompt_tokens = 14`,
so per the claim the returned string should be header + footer only
(60 characters). Instead `available_tokens = -1` is never clamped,
`chunk_text[:available_tokens * 4]` is the Python negative slice
`chunk_text[:-4]`, and the 79-character result contains 19 characters of
chunk content. -/
theorem assemble_negative_slice_bug :
    14 ≤ tokens (mkHeader [] ++ mkFooter []) ∧
    (mkHeader [] ++ mkFooter []).length = 60 ∧
    (assemble (mkHeader []) (mkFooter []) [⟨[], 0, str "abc", []⟩] 14).length = 79 ∧
    assemble (mkHeader []) (mkFooter []) [⟨[], 0, str "abc", []⟩] 14 ≠
      mkHeader [] ++ mkFooter [] := by decide

/-! ## Ranking lemmas -/

open Classical in
/-- The sublist of ranked pairs whose similarity equals `c`; stability of the
sort is expressed as invariance of these sublists. -/
noncomputable def filterKey (c : ℝ) (l : List (ℝ × EmbeddingItem)) :
    List (ℝ × EmbeddingItem) :=
  l.filter (fun p => decide (p.1 = c))

lemma filterKey_nil (c : ℝ) : filterKey c [] = [] := rfl

lemma filterKey_cons (c : ℝ) (x : ℝ × EmbeddingItem) (l : List (ℝ × EmbeddingItem)) :
    filterKey c (x :: l) =
      if x.1 = c then x :: filterKey c l else filterKey c l := by
  by_cases h : x.1 = c <;> simp [filterKey, List.filter_cons, h]

/-- Inserting `x` with `orderedInsert` places it in front of every element of
equal key, so each key-class sublist just gains `x` at its front. -/
lemma filterKey_orderedInsert (c : ℝ) (x : ℝ × EmbeddingItem) :
    ∀ l : List (ℝ × EmbeddingItem),
      filterKey c (List.orderedInsert simDesc x l) =
        if x.1 = c then x :: filterKey c l else filterKey c l := by
  intro l
  induction l with
  | nil => by_cases h : x.1 = c <;> simp [List.orderedInsert, filterKey_cons, filterKey_nil, h]
  | cons y ys ih =>
    rw [List.orderedInsert]
    by_cases hxy : simDesc x y
    · rw [if_pos hxy]
      by_cases hx : x.1 = c <;>
        simp [filterKey_cons, hx]
    · rw [if_neg hxy]
      have hyx : x.1 < y.1 := lt_of_not_le hxy
      rw [filterKey_cons, ih]
      by_cases hx : x.1 = c
      · have hy : ¬ y.1 = c := fun hc => absurd (hx.trans hc.symm) (ne_of_lt hyx)
        simp [filterKey_cons, hx, hy]
      · by_cases hy : y.1 = c <;> simp [filterKey_cons, hx, hy]

/-- Stable insertion sort preserves each key-class sublist. -/
lemma filterKey_insertionSort (c : ℝ) :
    ∀ l : List (ℝ × EmbeddingItem),
      filterKey c (List.insertionSort simDesc l) = filterKey c l := by
  intro l
  induction l with
  | nil => rfl
  | cons x xs ih =>
    rw [List.insertionSort, filterKey_orderedInsert, filterKey_cons, ih]

/-- C6: `rank` pairs every chunk with its cosine similarity to the query and
returns these pairs sorted in descending order of similarity; it is a
permutation of the similarity-annotated input, and pairs of equal similarity
keep the original chunk order (each equal-similarity sublist is unchanged). -/
theorem rank_sorted_stable (query_embedding : List ℝ) (embeddings_data : List EmbeddingItem) :
    List.Sorted simDesc (rank query_embedding embeddings_data) ∧
    (rank query_embedding embeddings_data).Perm
      (embeddings_data.map
        (fun item => (cosine_similarity query_embedding item.embedding, item))) ∧
    ∀ c : ℝ, filterKey c (rank query_embedding embeddings_data) =
      filterKey c (embeddings_data.map
        (fun item => (cosine_similarity query_embedding item.embedding, item))) :=
  ⟨List.sorted_insertionSort simDesc _,
   List.perm_insertionSort simDesc _,
   fun c => filterKey_insertionSort c _⟩

/-! ## Cosine similarity -/

/-- C7: `cosine_similarity` is total: whenever either vector has zero
magnitude the result is 0; otherwise the divisor is provably nonzero and the
result times the divisor recovers the dot product (no division by zero). -/
theorem cosine_similarity_total (v1 v2 : List ℝ) :
    (np_norm v1 = 0 ∨ np_norm v2 = 0 → cosine_similarity v1 v2 = 0) ∧
    (np_norm v1 ≠ 0 → np_norm v2 ≠ 0 →
      np_norm v1 * np_norm v2 ≠ 0 ∧
      cosine_similarity v1 v2 * (np_norm v1 * np_norm v2) = dot v1 v2) := by
  constructor
  · intro h
    rw [cosine_similarity, if_pos h]
  · intro h1 h2
    have hne : np_norm v1 * np_norm v2 ≠ 0 := mul_ne_zero h1 h2
    refine ⟨hne, ?_⟩
    rw [cosine_similarity, if_neg (by tauto)]
    exact div_mul_cancel₀ _ hne

/-- C7 witness: the zero vector `[0]` has zero magnitude and its similarity
with `[1]` is 0. -/
theorem cosine_similarity_total_witness :
    np_norm [(0 : ℝ)] = 0 ∧ cosine_similarity [(0 : ℝ)] [(1 : ℝ)] = 0 := by
  have h : np_norm [(0 : ℝ)] = 0 := by simp [np_norm, dot]
  exact ⟨h, (cosine_similarity_total [(0 : ℝ)] [(1 : ℝ)]).1 (Or.inl h)⟩

/-! ## Selection policy, query failure, cache, persistence, build invariant -/

/-- C8: with the include-entire-codebase policy, whenever projecting the full
corpus into the prompt would overflow the budget
(`len(full_prompt) // 4 > max_prompt_tokens`), the assembler falls back to the
top-`top_k` selection, surfaces a warning, and shows no error. -/
theorem whole_corpus_fallback (results : List (ℝ × EmbeddingItem)) (header footer : Str)
    (top_k : Nat) (max_prompt_tokens : Int)
    (hover : max_prompt_tokens <
      (tokens (header ++ (results.map (fun p => renderChunk p.2)).flatten ++ footer) : Int)) :
    select_and_assemble results header footer top_k max_prompt_tokens true =
      { prompt := assemble header footer ((results.take top_k).map Prod.snd) max_prompt_tokens,
        errorShown := false, warningShown := true } := by
  simp only [select_and_assemble, if_true]
  rw [if_pos hover]

/-- C8 witness: a budget of 0 tokens is overflowed by one 23-character chunk,
so the warning fires and the fallback prompt is assembled. -/
theorem whole_corpus_fallback_witness :
    select_and_assemble [((0 : ℝ), ⟨[], 0, str "abc", []⟩)] (mkHeader []) (mkFooter [])
        3 0 true =
      { prompt := assemble (mkHeader []) (mkFooter [])
          (([((0 : ℝ), (⟨[], 0, str "abc", []⟩ : EmbeddingItem))].take 3).map Prod.snd) 0,
        errorShown := false, warningShown := true } :=
  whole_corpus_fallback [((0 : ℝ), ⟨[], 0, str "abc", []⟩)] (mkHeader []) (mkFooter [])
    3 0 (by decide)

/-- C9: when the query embedding call fails (`embed_chunk` returns `None`),
`generate_enhanced_prompt` shows an error box and returns the empty sentinel
string immediately, for every chunk set and option combination — no chunk is
ranked and no context is produced. -/
theorem query_embedding_failure_aborts (query_text : Str)
    (embeddings_data : List EmbeddingItem) (custom_instructions : Str)
    (top_k : Nat) (max_prompt_tokens : Int) (include_entire_codebase : Bool) :
    generate_enhanced_prompt none query_text embeddings_data custom_instructions
        top_k max_prompt_tokens include_entire_codebase =
      { prompt := [], errorShown := true, warningShown := false } := rfl

/-- C4: when a persisted index exists whose stored fingerprint equals the
freshly computed one, `start_embedding_thread` returns the persisted
embeddings unchanged with zero embedding calls, regardless of the repository
contents, the embedding service, or the refresh answer. -/
theorem fresh_cache_no_embedding (data : IndexData) (current_hash : String)
    (refresh_answer : Bool) (code_files : List (Str × Str))
    (embed : Str → Option (List ℝ)) (max_chars : Nat)
    (hfresh : data.repo_hash = some current_hash) :
    start_embedding (some data) current_hash refresh_answer code_files embed max_chars =
      (data.embeddings, 0) := by
  simp [start_embedding, hfresh]

/-- C4 witness: a cached index with matching hash is returned as-is with a
call count of 0, even though the repository has an embeddable file. -/
theorem fresh_cache_no_embedding_witness :
    start_embedding (some ⟨some "h1", [⟨str "f.py", 0, str "code", [(1 : ℝ)]⟩]⟩) "h1"
        true [(str "f.py", str "code")] (fun _ => some [(1 : ℝ)]) 4 =
      ([⟨str "f.py", 0, str "code", [(1 : ℝ)]⟩], 0) :=
  fresh_cache_no_embedding ⟨some "h1", [⟨str "f.py", 0, str "code", [(1 : ℝ)]⟩]⟩ "h1"
    true [(str "f.py", str "code")] (fun _ => some [(1 : ℝ)]) 4 rfl

/-- C5 counterexample: the persistence step of `run_processing` writes the
serialized index directly to the final path (so it is not a
write-temp-then-rename), and interrupting that write can leave the file
holding a proper prefix of the index — a half-written index file. -/
theorem persist_not_atomic_counterexample :
    spec_atomic_persist
        (persist_index "embedding_output_repo.json" (str "serialized-index"))
        "embedding_output_repo.json" = false ∧
    str "serial" ∈ interrupted_contents
        (persist_index "embedding_output_repo.json" (str "serialized-index"))
        "embedding_output_repo.json" ∧
    str "serial" ≠ str "serialized-index" := by decide

/-- C5 (amended): the index is persisted by one direct write to the index
file, not a temp-then-rename; consequently an execution interrupted mid-write
can leave a half-written (proper-prefix) index file on disk. -/
theorem persist_index_direct_write (embed_file : String) (serialized : List Char)
    (hne : serialized ≠ []) :
    persist_index embed_file serialized = [FsOp.write embed_file serialized] ∧
    serialized.take (serialized.length - 1) ∈
      interrupted_contents (persist_index embed_file serialized) embed_file ∧
    serialized.take (serialized.length - 1) ≠ serialized := by
  have hlen : 0 < serialized.length := List.length_pos.mpr hne
  refine ⟨rfl, ?_, ?_⟩
  · simp only [persist_index, interrupted_contents, List.flatMap_cons, List.flatMap_nil,
      List.append_nil, if_pos rfl]
    exact List.mem_map.mpr ⟨serialized.length - 1, List.mem_range.mpr (by omega), rfl⟩
  · intro h
    have := congrArg List.length h
    rw [List.length_take] at this
    omega

/-- C5 witness: the amended statement at a concrete two-character index. -/
theorem persist_index_direct_write_witness :
    persist_index "f.json" (str "ab") = [FsOp.write "f.json" (str "ab")] ∧
    (str "ab").take ((str "ab").length - 1) ∈
      interrupted_contents (persist_index "f.json" (str "ab")) "f.json" ∧
    (str "ab").take ((str "ab").length - 1) ≠ str "ab" :=
  persist_index_direct_write "f.json" (str "ab") (by decide)

/-- The second component of an enumerated pair is a member of the
underlying list. -/
lemma snd_mem_of_mem_enumFrom {α : Type} :
    ∀ (l : List α) (n : Nat) (p : Nat × α), p ∈ l.enumFrom n → p.2 ∈ l := by
  intro l
  induction l with
  | nil => intro n p h; simp [List.enumFrom] at h
  | cons x xs ih =>
    intro n p h
    rw [List.enumFrom] at h
    rcases List.mem_cons.mp h with h | h
    · subst h; exact List.mem_cons_self x xs
    · exact List.mem_cons_of_mem x (ih (n + 1) p h)

/-- C10: every chunk record produced by a build has non-empty chunk text:
files whose content reads as the empty string are skipped, and chunking a
non-empty file with a positive chunk size yields only non-empty slices. -/
theorem build_chunks_nonempty (code_files : List (Str × Str))
    (embed : Str → Option (List ℝ)) (max_chars : Nat) (hm : 0 < max_chars) :
    ∀ item ∈ process_repo_with_progress code_files embed max_chars,
      item.chunk ≠ [] := by
  intro item hmem
  rw [process_repo_with_progress] at hmem
  obtain ⟨fc, _, hbody⟩ := List.mem_flatMap.mp hmem
  by_cases hempty : fc.2 = []
  · rw [if_pos hempty] at hbody
    simp at hbody
  · rw [if_neg hempty] at hbody
    obtain ⟨ic, hic, hmatch⟩ := List.mem_filterMap.mp hbody
    have hchunk : item.chunk = ic.2 := by
      cases hemb : embed ic.2 with
      | none => rw [hemb] at hmatch; simp at hmatch
      | some v =>
        cases v with
        | nil => rw [hemb] at hmatch; simp at hmatch
        | cons x xs =>
          rw [hemb] at hmatch
          simp only [Option.some.injEq] at hmatch
          rw [← hmatch]
    have hcm : ic.2 ∈ chunk_file_text fc.2 max_chars :=
      snd_mem_of_mem_enumFrom _ 0 ic hic
    rw [hchunk]
    exact chunk_file_text_ne_nil hm hempty _ hcm

/-- C10 witness: a one-file repository with non-empty content and a
succeeding embedder produces exactly one record, whose chunk is non-empty. -/
theorem build_chunks_nonempty_witness :
    (0 : Nat) < 4 ∧
    (⟨str "f.py", 0, str "xy", [(1 : ℝ)]⟩ : EmbeddingItem).chunk ≠ [] :=
  ⟨by decide,
    build_chunks_nonempty [(str "f.py", str "xy")] (fun _ => some [(1 : ℝ)]) 4 (by decide)
      ⟨str "f.py", 0, str "xy", [(1 : ℝ)]⟩
      (show _ ∈ [(⟨str "f.py", 0, str "xy", [(1 : ℝ)]⟩ : EmbeddingItem)] from
        List.mem_cons_self _ _)⟩

end CodebaseRag
